import Mathlib

/-!
# Verification of the DingerStats acoustic event-detection engine

Shallow embedding, over exact rationals, of the signal-processing core of the
DingerStats repository:

* `src/audio_filtering.py` — `AudioFilter.dynamic_range_compression`;
* `src/audio_processing/pattern_matching.py` — `find_pattern_matches`
  (peak normalization, valid-mode cross-correlation, division by the template
  length, `scipy.signal.find_peaks` with `height` and `distance`);
* `src/optimized_final_system.py` — `detect_innings_optimized` (same
  correlation pipeline with percentile / fraction-of-max thresholds);
* `src/multi_template_detector.py` — `combine_template_results` (consensus
  grouping of per-template candidate lists);
* `src/archive/old_audio_detection/extract_expanded_patterns.py` — the
  RMS-scored sliding-window template selection;
* `src/archive/old_audio_detection/analyze_chronological_transitions.py` —
  the three selection strategies and the fitness-scored choice among them.

Audio samples are modelled as `ℚ` (the Python code uses floats; all the
properties checked here are about exact data flow, not rounding).  Division
by zero in `ℚ` yields `0`; the only place this matters is peak-normalizing an
all-zero buffer, where NumPy produces NaN instead — both give a flat trace
with no local maxima, so the observable output (the peak list) agrees.

`numpy`/`scipy` library routines called by the code (`np.percentile`,
`scipy.signal.find_peaks` with its plateau-aware local-maxima scan and its
highest-priority-first distance pruning, Python's stable `sort` and
first-maximum `max`) are embedded following their documented semantics.
-/

namespace DingerStats

/-! ## Generic list helpers -/

/-- Sum of squares of a list of samples. -/
def sumSq (l : List ℚ) : ℚ := (l.map fun x => x * x).sum

/-- Dot product of two sample lists (truncated to the shorter length). -/
def dot (a b : List ℚ) : ℚ := ((a.zip b).map fun p => p.1 * p.2).sum

/-- `np.max(np.abs(xs))` for a list of samples, with `0` for the empty list. -/
def maxAbs (xs : List ℚ) : ℚ := (xs.map fun x => |x|).foldr max 0

theorem sumSq_nonneg (l : List ℚ) : 0 ≤ sumSq l := by
  induction l with
  | nil => simp [sumSq]
  | cons x xs ih =>
      simp only [sumSq, List.map_cons, List.sum_cons] at *
      have := mul_self_nonneg x
      linarith

theorem sumSq_append (a b : List ℚ) : sumSq (a ++ b) = sumSq a + sumSq b := by
  simp [sumSq]

/-- Each `2·x·y ≤ x² + y²` term gives `dot a b ≤ (sumSq a + sumSq b) / 2`. -/
theorem dot_le_half_sumSq (a b : List ℚ) : dot a b ≤ (sumSq a + sumSq b) / 2 := by
  induction a generalizing b with
  | nil =>
      have ha := sumSq_nonneg b
      have h0 : sumSq ([] : List ℚ) = 0 := by simp [sumSq]
      simp only [dot, List.zip_nil_left, List.map_nil, List.sum_nil, h0]
      linarith
  | cons x xs ih =>
      cases b with
      | nil =>
          have hx : 0 ≤ sumSq (x :: xs) := sumSq_nonneg _
          have h0 : sumSq ([] : List ℚ) = 0 := by simp [sumSq]
          simp only [dot, List.zip_nil_right, List.map_nil, List.sum_nil, h0]
          linarith
      | cons y ys =>
          have h2 : 2 * (x * y) ≤ x * x + y * y := by nlinarith [sq_nonneg (x - y)]
          have ih2 := ih ys
          simp only [dot, List.zip_cons_cons, List.map_cons, List.sum_cons, sumSq,
            List.map_cons, List.sum_cons] at *
          linarith

theorem maxAbs_nonneg (xs : List ℚ) : 0 ≤ maxAbs xs := by
  induction xs with
  | nil => simp [maxAbs]
  | cons x l ih =>
      simp only [maxAbs, List.map_cons, List.foldr_cons] at *
      exact le_trans ih (le_max_right _ _)

theorem abs_le_maxAbs {x : ℚ} {xs : List ℚ} (hx : x ∈ xs) : |x| ≤ maxAbs xs := by
  induction xs with
  | nil => cases hx
  | cons y l ih =>
      simp only [maxAbs, List.map_cons, List.foldr_cons]
      rcases List.mem_cons.mp hx with h | h
      · subst h; exact le_max_left _ _
      · exact le_trans (ih h) (le_max_right _ _)

theorem maxAbs_append (a b : List ℚ) : maxAbs (a ++ b) = max (maxAbs a) (maxAbs b) := by
  induction a with
  | nil =>
      have := maxAbs_nonneg b
      simp only [List.nil_append]
      have h0 : maxAbs ([] : List ℚ) = 0 := by simp [maxAbs]
      rw [h0, max_eq_right this]
  | cons x l ih =>
      simp only [maxAbs, List.map_cons, List.foldr_cons, List.map_append,
        List.foldr_append] at *
      rw [ih, max_assoc]

theorem maxAbs_replicate_zero (n : ℕ) : maxAbs (List.replicate n 0) = 0 := by
  induction n with
  | zero => simp [maxAbs]
  | succ k ih =>
      simp only [List.replicate_succ, maxAbs, List.map_cons, List.foldr_cons] at *
      rw [ih]; simp

/-! ## Signal Conditioner: dynamic range compression

`AudioFilter.dynamic_range_compression` in `src/audio_filtering.py`
(lines 78–97): samples with `|x| > threshold` are mapped to
`np.sign(x) * (threshold + (|x| - threshold) / ratio)`; all other samples
are copied unchanged (`np.copy` plus a masked assignment). -/

/-- `np.sign` on rationals. -/
def npSign (x : ℚ) : ℚ := if x > 0 then 1 else if x < 0 then -1 else 0

/-- `AudioFilter.dynamic_range_compression(audio_data, threshold, ratio)`. -/
def dynamic_range_compression (audioData : List ℚ) (threshold ratio : ℚ) : List ℚ :=
  audioData.map fun x =>
    if |x| > threshold then npSign x * (threshold + (|x| - threshold) / ratio) else x

/-! ## Correlation Matcher

`find_pattern_matches` in `src/audio_processing/pattern_matching.py`
(lines 108–121) and the identical sequence in
`detect_innings_optimized` (`src/optimized_final_system.py`, lines 70–79):
peak-normalize both signals, compute `scipy.signal.correlate(..., mode='valid')`
and divide by the template length. -/

/-- Peak normalization: `x / np.max(np.abs(x))` (NumPy gives NaN on an all-zero
buffer; in `ℚ`, division by zero gives the all-zero buffer — both produce a
flat trace with no peaks downstream). -/
def normalizeByPeak (xs : List ℚ) : List ℚ := xs.map fun x => x / maxAbs xs

/-- `scipy.signal.correlate(audio, ref, mode='valid')`:
entry `j` is the dot product of the length-`M` window of `audio` starting at
`j` with the template; there are `N - M + 1` entries. -/
def correlateValid (audio t : List ℚ) : List ℚ :=
  (List.range (audio.length - t.length + 1)).map fun j =>
    dot ((audio.drop j).take t.length) t

/-- The similarity trace of `find_pattern_matches`: correlation of the
peak-normalized signals, divided by the template length. -/
def correlationTrace (audio t : List ℚ) : List ℚ :=
  (correlateValid (normalizeByPeak audio) (normalizeByPeak t)).map
    fun c => c / (t.length : ℚ)

theorem length_correlateValid (audio t : List ℚ) :
    (correlateValid audio t).length = audio.length - t.length + 1 := by
  simp [correlateValid]

theorem length_normalizeByPeak (xs : List ℚ) :
    (normalizeByPeak xs).length = xs.length := by
  simp [normalizeByPeak]

theorem length_correlationTrace (audio t : List ℚ) :
    (correlationTrace audio t).length = audio.length - t.length + 1 := by
  simp [correlationTrace, length_correlateValid, length_normalizeByPeak]

theorem sumSq_replicate_zero (n : ℕ) : sumSq (List.replicate n 0) = 0 := by
  simp [sumSq, List.map_replicate]

theorem dot_self (l : List ℚ) : dot l l = sumSq l := by
  induction l with
  | nil => simp [dot, sumSq]
  | cons x xs ih => simp [dot, sumSq, List.zip_cons_cons] at *; linarith

theorem sumSq_take_le (l : List ℚ) (n : ℕ) : sumSq (l.take n) ≤ sumSq l := by
  have h := sumSq_append (l.take n) (l.drop n)
  rw [List.take_append_drop] at h
  have := sumSq_nonneg (l.drop n)
  linarith

theorem sumSq_drop_le (l : List ℚ) (n : ℕ) : sumSq (l.drop n) ≤ sumSq l := by
  have h := sumSq_append (l.take n) (l.drop n)
  rw [List.take_append_drop] at h
  have := sumSq_nonneg (l.take n)
  linarith

theorem sumSq_le_length (l : List ℚ) (h : ∀ x ∈ l, |x| ≤ 1) :
    sumSq l ≤ (l.length : ℚ) := by
  induction l with
  | nil => simp [sumSq]
  | cons x xs ih =>
      have hx : x * x ≤ 1 := by
        have := h x (List.mem_cons_self x xs)
        nlinarith [abs_nonneg x, sq_abs x]
      have hxs := ih fun y hy => h y (List.mem_cons_of_mem x hy)
      simp only [sumSq, List.map_cons, List.sum_cons, List.length_cons] at *
      push_cast
      linarith

theorem sumSq_pos_of_mem {x : ℚ} {l : List ℚ} (hx : x ∈ l) (hne : x ≠ 0) :
    0 < sumSq l := by
  induction l with
  | nil => cases hx
  | cons y ys ih =>
      have hys := sumSq_nonneg ys
      rcases List.mem_cons.mp hx with h | h
      · subst h
        have hxx : 0 < x * x := mul_self_pos.mpr hne
        simp only [sumSq, List.map_cons, List.sum_cons] at *
        linarith
      · have hpos := ih h
        have hyy := mul_self_nonneg y
        simp only [sumSq, List.map_cons, List.sum_cons] at *
        linarith

theorem maxAbs_eq_zero_of_all_zero {t : List ℚ} (h : ∀ x ∈ t, x = 0) :
    maxAbs t = 0 := by
  induction t with
  | nil => simp [maxAbs]
  | cons y ys ih =>
      have hy : y = 0 := h y (List.mem_cons_self y ys)
      have hys : maxAbs ys = 0 := ih fun x hx => h x (List.mem_cons_of_mem y hx)
      simp only [maxAbs, List.map_cons, List.foldr_cons] at *
      rw [hys, hy]; simp

theorem exists_ne_zero_of_maxAbs_pos {t : List ℚ} (h : 0 < maxAbs t) :
    ∃ x ∈ t, x ≠ 0 := by
  by_contra hc
  push_neg at hc
  rw [maxAbs_eq_zero_of_all_zero hc] at h
  exact lt_irrefl 0 h

theorem abs_normalize_le_one {t : List ℚ} (ht : 0 < maxAbs t) :
    ∀ y ∈ normalizeByPeak t, |y| ≤ 1 := by
  intro y hy
  rcases List.mem_map.mp hy with ⟨x, hx, rfl⟩
  rw [abs_div, abs_of_pos ht]
  exact div_le_one_of_le₀ (abs_le_maxAbs hx) (le_of_lt ht)

theorem maxAbs_buffer (t : List ℚ) (a b : ℕ) :
    maxAbs (List.replicate a 0 ++ t ++ List.replicate b 0) = maxAbs t := by
  rw [maxAbs_append, maxAbs_append, maxAbs_replicate_zero, maxAbs_replicate_zero,
    max_eq_right (maxAbs_nonneg t), max_eq_left (maxAbs_nonneg t)]

theorem normalizeByPeak_buffer (t : List ℚ) (a b : ℕ) :
    normalizeByPeak (List.replicate a 0 ++ t ++ List.replicate b 0) =
      List.replicate a 0 ++ normalizeByPeak t ++ List.replicate b 0 := by
  unfold normalizeByPeak
  rw [maxAbs_buffer]
  simp [List.map_append, List.map_replicate, zero_div]

theorem correlationTrace_getD (audio t : List ℚ) (j : ℕ)
    (hj : j < audio.length - t.length + 1) :
    (correlationTrace audio t).getD j 0 =
      dot (((normalizeByPeak audio).drop j).take t.length) (normalizeByPeak t) /
        (t.length : ℚ) := by
  simp only [correlationTrace, correlateValid, length_normalizeByPeak]
  rw [List.getD_eq_getElem?_getD, List.map_map, List.getElem?_map,
    List.getElem?_range hj]
  rfl

theorem window_at_offset (t : List ℚ) (a b : ℕ) :
    ((List.replicate a (0:ℚ) ++ normalizeByPeak t ++ List.replicate b 0).drop a).take
        t.length = normalizeByPeak t := by
  have h1 : (List.replicate a (0:ℚ) ++ (normalizeByPeak t ++ List.replicate b 0)).drop a =
      normalizeByPeak t ++ List.replicate b 0 := by
    have h := List.drop_left (List.replicate a (0:ℚ)) (normalizeByPeak t ++ List.replicate b 0)
    rwa [List.length_replicate] at h
  have h2 : (normalizeByPeak t ++ List.replicate b (0:ℚ)).take t.length = normalizeByPeak t := by
    have h := List.take_left (normalizeByPeak t) (List.replicate b (0:ℚ))
    rwa [length_normalizeByPeak] at h
  rw [List.append_assoc, h1, h2]

/-- C1 (as stated, refuted): the pipeline of `find_pattern_matches`
(`src/audio_processing/pattern_matching.py`, lines 108–121) on a buffer
containing an identical copy of the template `[1, 0]` at offset 2 produces a
similarity trace whose maximum is exactly `1/2`, not ≈ 1.0: dividing the raw
valid-mode correlation by the template length yields the mean squared sample
of the peak-normalized template, which is below `9/10` here (and can be made
arbitrarily small).  The maximum does occur at the offset. -/
theorem C1_self_match_counterexample :
    correlationTrace [0, 0, 1, 0, 0, 0] [1, 0] = [0, 0, 1/2, 0, 0] ∧
      (∀ y ∈ correlationTrace [0, 0, 1, 0, 0, 0] [1, 0], y ≤ 1/2) ∧
      ¬ ((9:ℚ)/10 ≤ (1:ℚ)/2) := by
  have h : correlationTrace [0, 0, 1, 0, 0, 0] [1, 0] = [0, 0, 1/2, 0, 0] := by
    norm_num [correlationTrace, correlateValid, normalizeByPeak, maxAbs, dot,
      List.range_succ]
  refine ⟨h, ?_, by norm_num⟩
  rw [h]
  intro y hy
  fin_cases hy <;> norm_num

/-- C1 (amended): correlating a template against a buffer that is the template
copied at offset `a` into silence yields a trace whose value at the offset is
`sumSq (normalizeByPeak t) / length t` — the mean squared sample of the
peak-normalized template — which is the global maximum of the trace, strictly
positive and at most 1 (equal to 1 only when every sample sits at peak
magnitude, which is what the spec's "score ≈ 1.0" would require). -/
theorem C1_self_match_amended (t : List ℚ) (a b : ℕ) (ht : 0 < maxAbs t) :
    (correlationTrace (List.replicate a 0 ++ t ++ List.replicate b 0) t).getD a 0 =
        sumSq (normalizeByPeak t) / (t.length : ℚ) ∧
      (∀ j < (correlationTrace (List.replicate a 0 ++ t ++ List.replicate b 0) t).length,
        (correlationTrace (List.replicate a 0 ++ t ++ List.replicate b 0) t).getD j 0 ≤
          (correlationTrace (List.replicate a 0 ++ t ++ List.replicate b 0) t).getD a 0) ∧
      0 < (correlationTrace (List.replicate a 0 ++ t ++ List.replicate b 0) t).getD a 0 ∧
      (correlationTrace (List.replicate a 0 ++ t ++ List.replicate b 0) t).getD a 0 ≤ 1 := by
  set buffer := List.replicate a (0:ℚ) ++ t ++ List.replicate b 0 with hbuf
  have htne : t ≠ [] := by
    intro h
    rw [h] at ht
    simp [maxAbs] at ht
  have hM : 0 < t.length := List.length_pos.mpr htne
  have hMQ : (0:ℚ) < (t.length : ℚ) := by exact_mod_cast hM
  have hblen : buffer.length = a + t.length + b := by
    simp only [hbuf, List.length_append, List.length_replicate]
    try omega
  have hK : buffer.length - t.length + 1 = a + b + 1 := by omega
  have ha : a < buffer.length - t.length + 1 := by omega
  have hgetA :
      (correlationTrace buffer t).getD a 0 =
        sumSq (normalizeByPeak t) / (t.length : ℚ) := by
    rw [correlationTrace_getD buffer t a ha, hbuf, normalizeByPeak_buffer,
      window_at_offset, dot_self]
  have hsumN : sumSq (normalizeByPeak buffer) = sumSq (normalizeByPeak t) := by
    rw [hbuf, normalizeByPeak_buffer, sumSq_append, sumSq_append,
      sumSq_replicate_zero, sumSq_replicate_zero]
    ring
  refine ⟨hgetA, ?_, ?_, ?_⟩
  · intro j hj
    rw [length_correlationTrace] at hj
    rw [correlationTrace_getD buffer t j hj, hgetA]
    apply div_le_div_of_nonneg_right _ (le_of_lt hMQ)
    have h1 := dot_le_half_sumSq
      (((normalizeByPeak buffer).drop j).take t.length) (normalizeByPeak t)
    have h2 : sumSq (((normalizeByPeak buffer).drop j).take t.length) ≤
        sumSq (normalizeByPeak t) := by
      calc sumSq (((normalizeByPeak buffer).drop j).take t.length)
          ≤ sumSq ((normalizeByPeak buffer).drop j) := sumSq_take_le _ _
        _ ≤ sumSq (normalizeByPeak buffer) := sumSq_drop_le _ _
        _ = sumSq (normalizeByPeak t) := hsumN
    linarith
  · rw [hgetA]
    apply div_pos _ hMQ
    rcases exists_ne_zero_of_maxAbs_pos ht with ⟨x, hx, hxne⟩
    have hmem : x / maxAbs t ∈ normalizeByPeak t := List.mem_map_of_mem _ hx
    exact sumSq_pos_of_mem hmem (div_ne_zero hxne (ne_of_gt ht))
  · rw [hgetA]
    rw [div_le_one hMQ]
    calc sumSq (normalizeByPeak t) ≤ ((normalizeByPeak t).length : ℚ) :=
          sumSq_le_length _ (abs_normalize_le_one ht)
      _ = (t.length : ℚ) := by rw [length_normalizeByPeak]

/-- Witness for `C1_self_match_amended` at the concrete template `[1, 0]`
pasted at offset 2 into a length-5 silent buffer. -/
theorem C1_self_match_amended_witness :
    0 < maxAbs [1, 0] ∧
      (correlationTrace (List.replicate 2 0 ++ [1, 0] ++ List.replicate 1 0) [1, 0]).getD
          2 0 = sumSq (normalizeByPeak [1, 0]) / (([1, 0] : List ℚ).length : ℚ) :=
  ⟨by norm_num [maxAbs], (C1_self_match_amended [1, 0] 2 1 (by norm_num [maxAbs])).1⟩

/-- C3: for every signal and template, the similarity trace produced by the
Correlation Matcher (`find_pattern_matches`, lines 108–120, and
`detect_innings_optimized`, lines 70–79) has exactly
`length signal - length template + 1` entries — valid-mode cross-correlation. -/
theorem C3_similarity_trace_length (signal t : List ℚ)
    (_h1 : 1 ≤ t.length) (_h2 : t.length ≤ signal.length) :
    (correlationTrace signal t).length = signal.length - t.length + 1 :=
  length_correlationTrace signal t

/-- Witness for `C3_similarity_trace_length` on a length-4 signal and a
length-2 template: the trace has 3 entries. -/
theorem C3_similarity_trace_length_witness :
    1 ≤ ([1, 2] : List ℚ).length ∧ ([1, 2] : List ℚ).length ≤ ([1, 2, 3, 4] : List ℚ).length ∧
      (correlationTrace [1, 2, 3, 4] [1, 2]).length =
        ([1, 2, 3, 4] : List ℚ).length - ([1, 2] : List ℚ).length + 1 :=
  ⟨by decide, by decide, C3_similarity_trace_length [1, 2, 3, 4] [1, 2] (by decide) (by decide)⟩

theorem compress_sample (x threshold ratio : ℚ) (hθ : 0 ≤ threshold) (hr : 1 ≤ ratio) :
    (|x| ≤ threshold →
        (if |x| > threshold then npSign x * (threshold + (|x| - threshold) / ratio) else x)
          = x) ∧
      (threshold < |x| →
        (if |x| > threshold then npSign x * (threshold + (|x| - threshold) / ratio) else x)
          = npSign x * (threshold + (|x| - threshold) / ratio)) ∧
      npSign (if |x| > threshold then npSign x * (threshold + (|x| - threshold) / ratio) else x)
          = npSign x ∧
      |if |x| > threshold then npSign x * (threshold + (|x| - threshold) / ratio) else x| ≤ |x| := by
  have hr0 : (0:ℚ) < ratio := by linarith
  by_cases hc : threshold < |x|
  · rw [if_pos hc]
    rcases lt_trichotomy x 0 with hx | hx | hx
    · have habs : |x| = -x := abs_of_neg hx
      have hs : npSign x = -1 := by simp [npSign, hx, asymm hx]
      have hd : 0 < -x - threshold := by rw [habs] at hc; linarith
      have hdr1 : 0 < (-x - threshold) / ratio := div_pos hd hr0
      have hdr2 : (-x - threshold) / ratio ≤ -x - threshold := div_le_self (le_of_lt hd) hr
      have hy : npSign x * (threshold + (|x| - threshold) / ratio) =
          -(threshold + (-x - threshold) / ratio) := by rw [hs, habs]; ring
      have hyneg : npSign x * (threshold + (|x| - threshold) / ratio) < 0 := by
        rw [hy]; linarith
      refine ⟨fun h => absurd hc (not_lt.mpr h), fun _ => rfl, ?_, ?_⟩
      · show npSign (npSign x * (threshold + (|x| - threshold) / ratio)) = npSign x
        rw [hs] at hyneg ⊢
        simp only [npSign, gt_iff_lt]
        rw [if_neg (asymm hyneg), if_pos hyneg]
      · rw [abs_of_neg hyneg, hy, habs]; linarith
    · subst hx
      simp only [abs_zero] at hc
      linarith
    · have habs : |x| = x := abs_of_pos hx
      have hs : npSign x = 1 := by simp [npSign, hx]
      have hd : 0 < x - threshold := by rw [habs] at hc; linarith
      have hdr1 : 0 < (x - threshold) / ratio := div_pos hd hr0
      have hdr2 : (x - threshold) / ratio ≤ x - threshold := div_le_self (le_of_lt hd) hr
      have hy : npSign x * (threshold + (|x| - threshold) / ratio) =
          threshold + (x - threshold) / ratio := by rw [hs, habs]; ring
      have hypos : 0 < npSign x * (threshold + (|x| - threshold) / ratio) := by
        rw [hy]; linarith
      refine ⟨fun h => absurd hc (not_lt.mpr h), fun _ => rfl, ?_, ?_⟩
      · show npSign (npSign x * (threshold + (|x| - threshold) / ratio)) = npSign x
        rw [hs] at hypos ⊢
        simp only [npSign, gt_iff_lt]
        rw [if_pos hypos]
      · rw [abs_of_pos hypos, hy, habs]; linarith
  · rw [if_neg hc]
    exact ⟨fun _ => rfl, fun h => absurd h hc, rfl, le_refl _⟩

/-- C10: `dynamic_range_compression` (`src/audio_filtering.py`, lines 78–97)
maps each sample independently: samples with `|x| ≤ threshold` are returned
unchanged, samples with `|x| > threshold` become
`np.sign(x) * (threshold + (|x| - threshold) / ratio)`; consequently (for a
nonnegative threshold and ratio ≥ 1, as in every call in the code) the sign
of every sample is preserved and no sample's magnitude increases. -/
theorem C10_compression_contract (audioData : List ℚ) (threshold ratio : ℚ)
    (hθ : 0 ≤ threshold) (hr : 1 ≤ ratio) :
    List.Forall₂ (fun x y =>
        (|x| ≤ threshold → y = x) ∧
        (threshold < |x| → y = npSign x * (threshold + (|x| - threshold) / ratio)) ∧
        npSign y = npSign x ∧ |y| ≤ |x|)
      audioData (dynamic_range_compression audioData threshold ratio) := by
  rw [dynamic_range_compression, List.forall₂_map_right_iff, List.forall₂_same]
  intro x _
  exact compress_sample x threshold ratio hθ hr

/-- Witness for `C10_compression_contract` on the buffer `[1/2, -1, 0, 1/4]`
with the code's default `threshold=0.3`, `ratio=4.0`. -/
theorem C10_compression_contract_witness :
    0 ≤ (3:ℚ)/10 ∧ 1 ≤ (4:ℚ) ∧
      List.Forall₂ (fun x y =>
          (|x| ≤ (3:ℚ)/10 → y = x) ∧
          ((3:ℚ)/10 < |x| → y = npSign x * ((3:ℚ)/10 + (|x| - (3:ℚ)/10) / 4)) ∧
          npSign y = npSign x ∧ |y| ≤ |x|)
        [1/2, -1, 0, 1/4] (dynamic_range_compression [1/2, -1, 0, 1/4] ((3:ℚ)/10) 4) :=
  ⟨by norm_num, by norm_num,
    C10_compression_contract [1/2, -1, 0, 1/4] ((3:ℚ)/10) 4 (by norm_num) (by norm_num)⟩

/-! ## Peak Extractor

`scipy.signal.find_peaks(correlation, height=threshold, distance=min_gap_samples)`
as called in `find_pattern_matches` (lines 124–129), `detect_innings_optimized`
(lines 100–104) and `detect_with_multiple_templates` (lines 150–154).
The embedding follows scipy's documented algorithm:

* `_local_maxima_1d`: scan indices `1 .. n-2`; on a rise `x[i-1] < x[i]`,
  walk ahead over the plateau of samples equal to `x[i]`; if the sample after
  the plateau is strictly smaller, record the plateau midpoint
  `(left + right) / 2` and resume after the plateau;
* the `height` condition keeps peaks with `threshold ≤ x[peak]`;
* `_select_by_peak_distance`: process peaks from highest to lowest priority
  (priority = trace value; ties broken toward the larger index, matching
  `np.argsort`'s stable ascending sort traversed backwards); each peak still
  unsuppressed when processed is kept and suppresses every other peak closer
  than `distance` samples; kept peaks are finally listed in index order. -/

/-- Walk forward from `i` while `i < iMax` and `x[i] = v` (the plateau scan of
`_local_maxima_1d`); `fuel` bounds the recursion and is always called with at
least `x.length`, which the scan can never exceed. -/
def plateauEnd (x : List ℚ) (v : ℚ) (iMax : ℕ) : ℕ → ℕ → ℕ
  | 0, i => i
  | fuel + 1, i => if i < iMax ∧ x.getD i 0 = v then plateauEnd x v iMax fuel (i + 1) else i

/-- One pass of `_local_maxima_1d`'s outer loop starting at index `i`. -/
def localMaximaAux (x : List ℚ) (iMax : ℕ) : ℕ → ℕ → List ℕ
  | 0, _ => []
  | fuel + 1, i =>
    if i < iMax then
      if x.getD (i - 1) 0 < x.getD i 0 then
        let iAhead := plateauEnd x (x.getD i 0) iMax x.length (i + 1)
        if x.getD iAhead 0 < x.getD i 0 then
          (i + (iAhead - 1)) / 2 :: localMaximaAux x iMax fuel (iAhead + 1)
        else localMaximaAux x iMax fuel (i + 1)
      else localMaximaAux x iMax fuel (i + 1)
    else []

/-- `_local_maxima_1d`: indices of strict local maxima (plateau midpoints);
edge samples are never maxima. -/
def localMaxima (x : List ℚ) : List ℕ := localMaximaAux x (x.length - 1) x.length 1

/-- Trace value at an index (indices produced by `localMaxima` are in range). -/
def heightAt (x : List ℚ) (i : ℕ) : ℚ := x.getD i 0

/-- Insert into a list sorted ascending by `key`, before the first element
with a key that is not smaller — the stable placement of `np.argsort` and
Python's `sorted`. -/
def insertByKey {α : Type} (key : α → ℚ) (a : α) : List α → List α
  | [] => [a]
  | b :: l => if key a ≤ key b then a :: b :: l else b :: insertByKey key a l

/-- Stable insertion sort ascending by `key`. -/
def sortByKey {α : Type} (key : α → ℚ) : List α → List α
  | [] => []
  | a :: l => insertByKey key a (sortByKey key l)

/-- The suppression loop of `_select_by_peak_distance`: `order` lists the
peaks from highest to lowest priority; a peak within `distance` of an
already-kept (higher-priority) peak is dropped, otherwise it is kept. -/
def nmsGreedy (d : ℕ) : List ℕ → List ℕ → List ℕ
  | [], kept => kept
  | j :: rest, kept =>
    if kept.any fun k => Nat.dist j k < d then nmsGreedy d rest kept
    else nmsGreedy d rest (kept ++ [j])

/-- `_select_by_peak_distance(peaks, priority=x[peaks], distance)`: the kept
peaks, listed in ascending index order (`peaks[keep]`). -/
def selectByPeakDistance (x : List ℚ) (peaks : List ℕ) (d : ℕ) : List ℕ :=
  peaks.filter fun p => (nmsGreedy d ((sortByKey (heightAt x) peaks).reverse) []).contains p

/-- `scipy.signal.find_peaks(x, height, distance)` restricted to the two
conditions the repository uses. -/
def findPeaks (x : List ℚ) (height : ℚ) (distance : ℕ) : List ℕ :=
  selectByPeakDistance x ((localMaxima x).filter fun i => height ≤ heightAt x i) distance

/-- `int(min_gap * sr)`: Python `int()` truncation (arguments are nonnegative
in every call, so this is the floor). -/
def gapToSamples (gap sr : ℚ) : ℕ := (Int.floor (gap * sr)).toNat

/-- The candidate list built from the peak indices
(`find_pattern_matches` lines 133–138 before the score sort,
`detect_innings_optimized` lines 106–111): each peak index becomes
`(idx / sr, correlation[idx])`. -/
def extractCandidates (corr : List ℚ) (threshold gap sr : ℚ) : List (ℚ × ℚ) :=
  (findPeaks corr threshold (gapToSamples gap sr)).map fun i =>
    (((i : ℕ) : ℚ) / sr, heightAt corr i)

theorem nmsGreedy_exists_extra (d : ℕ) (l kept : List ℕ) :
    ∃ extra, nmsGreedy d l kept = kept ++ extra ∧ extra.Sublist l := by
  induction l generalizing kept with
  | nil => exact ⟨[], by simp [nmsGreedy], List.nil_sublist []⟩
  | cons j rest ih =>
      by_cases h : (kept.any fun k => Nat.dist j k < d) = true
      · rcases ih kept with ⟨e, he, hs⟩
        exact ⟨e, by simp [nmsGreedy, h, he], hs.cons j⟩
      · rcases ih (kept ++ [j]) with ⟨e, he, hs⟩
        refine ⟨j :: e, ?_, hs.cons₂ j⟩
        simp only [nmsGreedy, h, Bool.false_eq_true, if_false, he, List.append_assoc,
          List.singleton_append]

theorem nmsGreedy_pairwise (d : ℕ) (l kept : List ℕ)
    (h : kept.Pairwise fun a b => d ≤ Nat.dist a b) :
    (nmsGreedy d l kept).Pairwise fun a b => d ≤ Nat.dist a b := by
  induction l generalizing kept with
  | nil => simpa [nmsGreedy] using h
  | cons j rest ih =>
      by_cases hc : (kept.any fun k => Nat.dist j k < d) = true
      · simpa [nmsGreedy, hc] using ih kept h
      · have hall : ∀ k ∈ kept, d ≤ Nat.dist k j := by
          rw [Bool.not_eq_true, List.any_eq_false] at hc
          intro k hk
          have hk2 := hc k hk
          rw [Nat.dist_comm]
          simpa using hk2
        have h2 : (kept ++ [j]).Pairwise fun a b => d ≤ Nat.dist a b := by
          rw [List.pairwise_append]
          refine ⟨h, List.pairwise_singleton _ j, ?_⟩
          intro a ha b hb
          rw [List.mem_singleton] at hb
          subst hb
          exact hall a ha
        simpa [nmsGreedy, hc] using ih (kept ++ [j]) h2

theorem plateauEnd_ge (x : List ℚ) (v : ℚ) (iMax fuel i : ℕ) :
    i ≤ plateauEnd x v iMax fuel i := by
  induction fuel generalizing i with
  | zero => simp [plateauEnd]
  | succ f ih =>
      simp only [plateauEnd]
      split
      · exact le_trans (Nat.le_succ i) (ih (i + 1))
      · exact le_refl i

theorem localMaximaAux_lb (x : List ℚ) (iMax fuel : ℕ) :
    ∀ i m, m ∈ localMaximaAux x iMax fuel i → i ≤ m := by
  induction fuel with
  | zero => intro i m hm; simp [localMaximaAux] at hm
  | succ f ih =>
      intro i m hm
      simp only [localMaximaAux] at hm
      by_cases h1 : i < iMax
      · rw [if_pos h1] at hm
        by_cases h2 : x.getD (i - 1) 0 < x.getD i 0
        · rw [if_pos h2] at hm
          have hge : i + 1 ≤ plateauEnd x (x.getD i 0) iMax x.length (i + 1) :=
            plateauEnd_ge ..
          by_cases h3 : x.getD (plateauEnd x (x.getD i 0) iMax x.length (i + 1)) 0 <
              x.getD i 0
          · rw [if_pos h3] at hm
            rcases List.mem_cons.mp hm with rfl | hm2
            · omega
            · have := ih _ m hm2; omega
          · rw [if_neg h3] at hm
            have := ih _ m hm; omega
        · rw [if_neg h2] at hm
          have := ih _ m hm; omega
      · rw [if_neg h1] at hm
        simp at hm

theorem localMaximaAux_pairwise (x : List ℚ) (iMax fuel : ℕ) :
    ∀ i, (localMaximaAux x iMax fuel i).Pairwise (· < ·) := by
  induction fuel with
  | zero => intro i; simp [localMaximaAux]
  | succ f ih =>
      intro i
      simp only [localMaximaAux]
      by_cases h1 : i < iMax
      · rw [if_pos h1]
        by_cases h2 : x.getD (i - 1) 0 < x.getD i 0
        · rw [if_pos h2]
          have hge : i + 1 ≤ plateauEnd x (x.getD i 0) iMax x.length (i + 1) :=
            plateauEnd_ge ..
          by_cases h3 : x.getD (plateauEnd x (x.getD i 0) iMax x.length (i + 1)) 0 <
              x.getD i 0
          · rw [if_pos h3]
            refine List.Pairwise.cons ?_ (ih _)
            intro m hm
            have := localMaximaAux_lb x iMax f _ m hm
            omega
          · rw [if_neg h3]; exact ih _
        · rw [if_neg h2]; exact ih _
      · rw [if_neg h1]; exact List.Pairwise.nil

theorem localMaxima_pairwise (x : List ℚ) : (localMaxima x).Pairwise (· < ·) :=
  localMaximaAux_pairwise x _ _ 1

theorem insertByKey_perm {α : Type} (key : α → ℚ) (a : α) (l : List α) :
    List.Perm (insertByKey key a l) (a :: l) := by
  induction l with
  | nil => exact List.Perm.refl _
  | cons b m ih =>
      simp only [insertByKey]
      split
      · exact List.Perm.refl _
      · exact ((ih.cons b).trans (List.Perm.swap a b m))

theorem sortByKey_perm {α : Type} (key : α → ℚ) (l : List α) :
    List.Perm (sortByKey key l) l := by
  induction l with
  | nil => exact List.Perm.refl _
  | cons a m ih =>
      simp only [sortByKey]
      exact (insertByKey_perm key a (sortByKey key m)).trans (ih.cons a)

theorem mem_insertByKey {α : Type} {key : α → ℚ} {a c : α} {l : List α} :
    c ∈ insertByKey key a l ↔ c = a ∨ c ∈ l := by
  rw [(insertByKey_perm key a l).mem_iff, List.mem_cons]

theorem insertByKey_pairwise {α : Type} (key : α → ℚ) (a : α) (l : List α)
    (h : l.Pairwise fun u v => key u ≤ key v) :
    (insertByKey key a l).Pairwise fun u v => key u ≤ key v := by
  induction l with
  | nil => simp [insertByKey]
  | cons b m ih =>
      rw [List.pairwise_cons] at h
      simp only [insertByKey]
      split
      · rename_i hab
        refine List.Pairwise.cons ?_ (List.Pairwise.cons h.1 h.2)
        intro c hc
        rcases List.mem_cons.mp hc with rfl | hc2
        · exact hab
        · exact le_trans hab (h.1 c hc2)
      · rename_i hab
        refine List.Pairwise.cons ?_ (ih h.2)
        intro c hc
        rcases mem_insertByKey.mp hc with rfl | hc2
        · exact le_of_lt (lt_of_not_le hab)
        · exact h.1 c hc2

theorem sortByKey_pairwise {α : Type} (key : α → ℚ) (l : List α) :
    (sortByKey key l).Pairwise fun u v => key u ≤ key v := by
  induction l with
  | nil => simp [sortByKey]
  | cons a m ih => exact insertByKey_pairwise key a _ ih

theorem insertByKey_of_forall_le {α : Type} {key : α → ℚ} {a : α} {l : List α}
    (h : ∀ c ∈ l, key a ≤ key c) : insertByKey key a l = a :: l := by
  cases l with
  | nil => rfl
  | cons b m =>
      simp only [insertByKey]
      rw [if_pos (h b (List.mem_cons_self b m))]

theorem insertByKey_filter {α : Type} (key : α → ℚ) (p : α → Bool) (a : α) (l : List α)
    (h : l.Pairwise fun u v => key u ≤ key v) :
    (insertByKey key a l).filter p =
      if p a then insertByKey key a (l.filter p) else l.filter p := by
  induction l with
  | nil =>
      simp only [insertByKey, List.filter]
      cases hpa : p a <;> simp [hpa, insertByKey]
  | cons b m ih =>
      rw [List.pairwise_cons] at h
      simp only [insertByKey]
      by_cases hab : key a ≤ key b
      · rw [if_pos hab]
        have hfl : insertByKey key a (List.filter p m) = a :: List.filter p m :=
          insertByKey_of_forall_le fun c hc =>
            le_trans hab (h.1 c (List.mem_of_mem_filter hc))
        cases hpa : p a <;> cases hpb : p b <;>
          simp [List.filter, hpa, hpb, insertByKey, hab, hfl]
      · rw [if_neg hab]
        cases hpa : p a <;> cases hpb : p b <;>
          simp [List.filter, hpa, hpb, ih h.2, insertByKey, hab]

theorem sortByKey_filter {α : Type} (key : α → ℚ) (p : α → Bool) (l : List α) :
    sortByKey key (l.filter p) = (sortByKey key l).filter p := by
  induction l with
  | nil => simp [sortByKey]
  | cons a m ih =>
      simp only [List.filter, sortByKey]
      cases hpa : p a
      · rw [ih, insertByKey_filter key p a _ (sortByKey_pairwise key m), hpa]
        simp
      · simp only [sortByKey]
        rw [ih, insertByKey_filter key p a _ (sortByKey_pairwise key m), hpa]
        simp

theorem filter_eq_takeWhile_of_sorted {α : Type} (p : α → Bool) (key : α → ℚ)
    (l : List α) (hsort : l.Pairwise fun u v => key v ≤ key u)
    (hmono : ∀ u v, key v ≤ key u → p v = true → p u = true) :
    l.filter p = l.takeWhile p := by
  induction l with
  | nil => rfl
  | cons a m ih =>
      rw [List.pairwise_cons] at hsort
      cases hpa : p a
      · have hm : m.filter p = [] := by
          apply List.filter_eq_nil_iff.mpr
          intro c hc hpc
          have : p a = true := hmono a c (hsort.1 c hc) hpc
          rw [hpa] at this
          exact Bool.false_ne_true this
        simp [List.filter, List.takeWhile, hpa, hm]
      · simp [List.filter, List.takeWhile, hpa, ih hsort.2]

theorem nmsGreedy_append (d : ℕ) (l₁ l₂ kept : List ℕ) :
    nmsGreedy d (l₁ ++ l₂) kept = nmsGreedy d l₂ (nmsGreedy d l₁ kept) := by
  induction l₁ generalizing kept with
  | nil => simp [nmsGreedy]
  | cons j rest ih =>
      simp only [List.cons_append, nmsGreedy]
      split <;> exact ih _

theorem length_le_nmsGreedy (d : ℕ) (l kept : List ℕ) :
    kept.length ≤ (nmsGreedy d l kept).length := by
  rcases nmsGreedy_exists_extra d l kept with ⟨e, he, _⟩
  rw [he, List.length_append]
  exact Nat.le_add_right ..

theorem nmsGreedy_nil_sublist (d : ℕ) (l : List ℕ) :
    (nmsGreedy d l []).Sublist l := by
  rcases nmsGreedy_exists_extra d l [] with ⟨e, he, hs⟩
  rw [he, List.nil_append]
  exact hs

theorem selectByPeakDistance_length (x : List ℚ) (peaks : List ℕ) (d : ℕ)
    (hnd : peaks.Nodup) :
    (selectByPeakDistance x peaks d).length =
      (nmsGreedy d ((sortByKey (heightAt x) peaks).reverse) []).length := by
  have horder_nodup : ((sortByKey (heightAt x) peaks).reverse).Nodup := by
    rw [List.nodup_reverse]
    exact ((sortByKey_perm (heightAt x) peaks).nodup_iff).mpr hnd
  have hkept_sub := nmsGreedy_nil_sublist d ((sortByKey (heightAt x) peaks).reverse)
  have hkept_nodup := hkept_sub.nodup horder_nodup
  have hkept_mem : ∀ q ∈ nmsGreedy d ((sortByKey (heightAt x) peaks).reverse) [], q ∈ peaks := by
    intro q hq
    have h1 := hkept_sub.subset hq
    rw [List.mem_reverse] at h1
    exact (sortByKey_perm (heightAt x) peaks).mem_iff.mp h1
  have hperm : List.Perm (selectByPeakDistance x peaks d)
      (nmsGreedy d ((sortByKey (heightAt x) peaks).reverse) []) := by
    apply List.perm_of_nodup_nodup_toFinset_eq (hnd.filter _) hkept_nodup
    ext q
    simp only [List.mem_toFinset, selectByPeakDistance, List.mem_filter, List.elem_iff]
    exact ⟨fun h => h.2, fun h => ⟨hkept_mem q h, h⟩⟩
  exact hperm.length_eq

theorem findPeaks_count_antitone (x : List ℚ) (d : ℕ) {τ τ' : ℚ} (h : τ ≤ τ') :
    (findPeaks x τ' d).length ≤ (findPeaks x τ d).length := by
  have hPnodup : (localMaxima x).Nodup :=
    (localMaxima_pairwise x).imp Nat.ne_of_lt
  have hfilter_nodup : ∀ c : ℚ,
      ((localMaxima x).filter fun i => decide (c ≤ heightAt x i)).Nodup :=
    fun c => hPnodup.filter _
  -- The τ'-surviving peaks are the τ-surviving peaks filtered again by τ'.
  have hPP : (localMaxima x).filter (fun i => decide (τ' ≤ heightAt x i)) =
      ((localMaxima x).filter fun i => decide (τ ≤ heightAt x i)).filter
        fun i => decide (τ' ≤ heightAt x i) := by
    rw [List.filter_filter]
    apply List.filter_congr
    intro i _
    cases hi : decide (τ' ≤ heightAt x i) with
    | false => simp
    | true =>
        have hτ' : τ' ≤ heightAt x i := of_decide_eq_true hi
        have hτ : τ ≤ heightAt x i := le_trans h hτ'
        simp [hτ]
  -- The τ'-priority order is a prefix of the τ-priority order.
  have hprefix : ∃ suffix,
      (sortByKey (heightAt x) ((localMaxima x).filter fun i => decide (τ ≤ heightAt x i))).reverse
        = (sortByKey (heightAt x)
            ((localMaxima x).filter fun i => decide (τ' ≤ heightAt x i))).reverse ++ suffix := by
    set L := (sortByKey (heightAt x)
      ((localMaxima x).filter fun i => decide (τ ≤ heightAt x i))).reverse with hL
    have h1 : (sortByKey (heightAt x)
        ((localMaxima x).filter fun i => decide (τ' ≤ heightAt x i))).reverse =
          L.filter fun i => decide (τ' ≤ heightAt x i) := by
      rw [hPP, sortByKey_filter, hL, List.filter_reverse]
    rw [h1]
    have hLsort : L.Pairwise fun u v => heightAt x v ≤ heightAt x u := by
      rw [hL, List.pairwise_reverse]
      exact sortByKey_pairwise ..
    have hmono : ∀ u v : ℕ, heightAt x v ≤ heightAt x u →
        decide (τ' ≤ heightAt x v) = true → decide (τ' ≤ heightAt x u) = true :=
      fun u v huv hv => decide_eq_true (le_trans (of_decide_eq_true hv) huv)
    rw [filter_eq_takeWhile_of_sorted _ (heightAt x) L hLsort hmono]
    rcases List.takeWhile_prefix (l := L) (fun i => decide (τ' ≤ heightAt x i)) with ⟨s, hs⟩
    exact ⟨s, hs.symm⟩
  rcases hprefix with ⟨suffix, hsplit⟩
  rw [findPeaks, findPeaks, selectByPeakDistance_length x _ d (hfilter_nodup τ),
    selectByPeakDistance_length x _ d (hfilter_nodup τ'), hsplit, nmsGreedy_append]
  exact length_le_nmsGreedy ..

/-! ## Percentile threshold strategy

`np.percentile(correlation, p)` as used in `detect_with_multiple_templates`
(`src/multi_template_detector.py`, line 147), `detect_innings_optimized`
(line 84) and `analyze_chronological_transitions` (line 36): NumPy's default
linear interpolation on the sorted data. -/

/-- `np.percentile(xs, p)`: with `a` the sorted data, `n = len(a)` and
`pos = p * (n-1) / 100`, interpolate linearly between `a[⌊pos⌋]` and the next
entry (clipped to the last index). -/
def npPercentile (xs : List ℚ) (p : ℚ) : ℚ :=
  let a := sortByKey id xs
  let n := a.length
  let pos := p * ((n : ℚ) - 1) / 100
  let i := (Int.floor pos).toNat
  a.getD i 0 + (pos - (i : ℚ)) * (a.getD (min (i + 1) (n - 1)) 0 - a.getD i 0)

theorem sorted_getD_mono {a : List ℚ} (h : a.Pairwise (· ≤ ·)) {i j : ℕ}
    (hij : i ≤ j) (hj : j < a.length) : a.getD i 0 ≤ a.getD j 0 := by
  rcases eq_or_lt_of_le hij with rfl | hlt
  · exact le_refl _
  · have hi : i < a.length := lt_trans hlt hj
    rw [List.getD_eq_getElem a 0 hi, List.getD_eq_getElem a 0 hj]
    exact List.pairwise_iff_getElem.mp h i j hi hj hlt

theorem toNat_floor_cast {x : ℚ} (hx : 0 ≤ x) :
    (((Int.floor x).toNat : ℕ) : ℚ) = ((Int.floor x : ℤ) : ℚ) := by
  have h1 : ((Int.floor x).toNat : ℤ) = Int.floor x :=
    Int.toNat_of_nonneg (Int.floor_nonneg.mpr hx)
  calc (((Int.floor x).toNat : ℕ) : ℚ) = (((Int.floor x).toNat : ℤ) : ℚ) := by
        push_cast; ring
    _ = ((Int.floor x : ℤ) : ℚ) := by rw [h1]

theorem npPercentile_mono (xs : List ℚ) {p q : ℚ} (hne : xs ≠ [])
    (h0 : 0 ≤ p) (hpq : p ≤ q) (h100 : q ≤ 100) :
    npPercentile xs p ≤ npPercentile xs q := by
  have hq0 : 0 ≤ q := le_trans h0 hpq
  set a := sortByKey id xs with haDef
  have hsort : a.Pairwise (· ≤ ·) := sortByKey_pairwise id xs
  have hlen : 0 < a.length := by
    rw [haDef, (sortByKey_perm id xs).length_eq]
    exact List.length_pos.mpr hne
  set n := a.length with hn
  have hn1 : (1:ℚ) ≤ (n : ℚ) := by exact_mod_cast hlen
  set posP := p * ((n : ℚ) - 1) / 100 with hposP
  set posQ := q * ((n : ℚ) - 1) / 100 with hposQ
  have hP0 : 0 ≤ posP := by
    apply div_nonneg _ (by norm_num)
    exact mul_nonneg h0 (by linarith)
  have hQ0 : 0 ≤ posQ := by
    apply div_nonneg _ (by norm_num)
    exact mul_nonneg hq0 (by linarith)
  have hPQ : posP ≤ posQ := by
    apply div_le_div_of_nonneg_right _ (by norm_num)
    exact mul_le_mul_of_nonneg_right hpq (by linarith)
  have hQtop : posQ ≤ (n : ℚ) - 1 := by
    rw [hposQ, div_le_iff₀ (by norm_num : (0:ℚ) < 100)]
    nlinarith
  set iP := (Int.floor posP).toNat with hiP
  set iQ := (Int.floor posQ).toNat with hiQ
  have hiPcast : (iP : ℚ) ≤ posP := by
    rw [hiP, toNat_floor_cast hP0]
    exact Int.floor_le posP
  have hiQcast : (iQ : ℚ) ≤ posQ := by
    rw [hiQ, toNat_floor_cast hQ0]
    exact Int.floor_le posQ
  have hiPlt : posP < (iP : ℚ) + 1 := by
    rw [hiP, toNat_floor_cast hP0]
    exact Int.lt_floor_add_one posP
  have hiQlt : posQ < (iQ : ℚ) + 1 := by
    rw [hiQ, toNat_floor_cast hQ0]
    exact Int.lt_floor_add_one posQ
  have hiPQ : iP ≤ iQ := by
    rw [hiP, hiQ]
    exact Int.toNat_le_toNat (Int.floor_le_floor hPQ)
  have hiQn : iQ ≤ n - 1 := by
    have h1 : (iQ : ℚ) ≤ (n : ℚ) - 1 := le_trans hiQcast hQtop
    have h2 : (iQ : ℚ) + 1 ≤ (n : ℚ) := by linarith
    have h3 : iQ + 1 ≤ n := by exact_mod_cast h2
    omega
  have hiPn : iP ≤ n - 1 := le_trans hiPQ hiQn
  set kP := min (iP + 1) (n - 1) with hkP
  set kQ := min (iQ + 1) (n - 1) with hkQ
  have hkPn : kP < n := by omega
  have hkQn : kQ < n := by omega
  have hiPkP : iP ≤ kP := by omega
  have hiQkQ : iQ ≤ kQ := by omega
  have haP : a.getD iP 0 ≤ a.getD kP 0 := sorted_getD_mono hsort hiPkP (hn ▸ hkPn)
  have haQ : a.getD iQ 0 ≤ a.getD kQ 0 := sorted_getD_mono hsort hiQkQ (hn ▸ hkQn)
  show a.getD iP 0 + (posP - (iP : ℚ)) * (a.getD kP 0 - a.getD iP 0) ≤
      a.getD iQ 0 + (posQ - (iQ : ℚ)) * (a.getD kQ 0 - a.getD iQ 0)
  rcases eq_or_lt_of_le hiPQ with heq | hlt
  · -- same interpolation segment
    rw [heq] at hiPcast hiPlt ⊢
    have hkk : kP = kQ := by rw [hkP, hkQ, heq]
    rw [hkk]
    nlinarith [haQ, hPQ, hiQcast]
  · -- different segments: valP ≤ a[kP] ≤ a[iQ] ≤ valQ
    have h1 : a.getD iP 0 + (posP - (iP : ℚ)) * (a.getD kP 0 - a.getD iP 0) ≤
        a.getD kP 0 := by nlinarith [haP, hiPlt, hiPcast]
    have hkPiQ : kP ≤ iQ := by omega
    have h2 : a.getD kP 0 ≤ a.getD iQ 0 :=
      sorted_getD_mono hsort hkPiQ (by omega)
    have h3 : a.getD iQ 0 ≤
        a.getD iQ 0 + (posQ - (iQ : ℚ)) * (a.getD kQ 0 - a.getD iQ 0) := by
      nlinarith [haQ, hiQcast]
    linarith

/-- C5: for a fixed similarity trace and a fixed minimum-gap setting, raising
the percentile used by the percentile threshold strategy
(`detect_with_multiple_templates`, `src/multi_template_detector.py`,
lines 146–164: `threshold = np.percentile(correlation, p)` followed by
`find_peaks(correlation, height=threshold, distance=min_gap_samples)`) never
increases the number of candidates returned by the Peak Extractor. -/
theorem C5_percentile_monotone (corr : List ℚ) (d : ℕ) (p q : ℚ)
    (hne : corr ≠ []) (h0 : 0 ≤ p) (hpq : p ≤ q) (h100 : q ≤ 100) :
    (findPeaks corr (npPercentile corr q) d).length ≤
      (findPeaks corr (npPercentile corr p) d).length :=
  findPeaks_count_antitone corr d (npPercentile_mono corr hne h0 hpq h100)

/-- Witness for `C5_percentile_monotone` on a concrete trace with the
percentile raised from 50 to 99.7. -/
theorem C5_percentile_monotone_witness :
    ([0, 3, 0, 2, 0] : List ℚ) ≠ [] ∧ (0:ℚ) ≤ 50 ∧ (50:ℚ) ≤ 997/10 ∧ (997:ℚ)/10 ≤ 100 ∧
      (findPeaks [0, 3, 0, 2, 0] (npPercentile [0, 3, 0, 2, 0] (997/10)) 1).length ≤
        (findPeaks [0, 3, 0, 2, 0] (npPercentile [0, 3, 0, 2, 0] 50) 1).length :=
  ⟨by simp, by norm_num, by norm_num, by norm_num,
    C5_percentile_monotone [0, 3, 0, 2, 0] 1 50 (997/10) (by simp) (by norm_num)
      (by norm_num) (by norm_num)⟩

/-- C4 (as stated, refuted): `find_peaks`'s distance filter is
priority-ordered suppression, not "keep only the highest within the window".
On the trace `[0,3,0,0,0,2,0,0,0,1,0]` with threshold 1 and distance 5, the
above-threshold local maxima are 1, 5, 9 (scores 3, 2, 1); maxima 5 and 9 lie
within 5 samples of each other and 5 has the higher score, yet the output is
`[1, 9]`: peak 5 was suppressed by the still-higher peak 1, which let the
lower-scoring peak 9 survive. -/
theorem C4_refractory_counterexample :
    findPeaks [0, 3, 0, 0, 0, 2, 0, 0, 0, 1, 0] 1 5 = [1, 9] ∧
      ((localMaxima [0, 3, 0, 0, 0, 2, 0, 0, 0, 1, 0]).filter
        fun i => (1:ℚ) ≤ heightAt [0, 3, 0, 0, 0, 2, 0, 0, 0, 1, 0] i) = [1, 5, 9] ∧
      Nat.dist 5 9 < 5 ∧
      heightAt [0, 3, 0, 0, 0, 2, 0, 0, 0, 1, 0] 9 <
        heightAt [0, 3, 0, 0, 0, 2, 0, 0, 0, 1, 0] 5 := by
  exact ⟨by rfl, by rfl, by decide, by norm_num [heightAt]⟩

/-- C4 (amended): for every trace, threshold and minimum gap whose sample
count `int(min_gap * sr)` is exact (as in every call in the code), the Peak
Extractor's output (`find_peaks` with `height` and `distance`, then index →
time conversion) satisfies: (a) any two candidates' times differ by at least
`min_gap_seconds`; and (b) whenever any local maximum clears the threshold,
some returned candidate carries the maximal above-threshold score.  The
original claim's stronger clause — that of several maxima within the window
only the highest-scoring one is kept — is false
(`C4_refractory_counterexample`). -/
theorem C4_refractory_amended (corr : List ℚ) (τ gap sr : ℚ) (hsr : 0 < sr)
    (hInt : ((gapToSamples gap sr : ℕ) : ℚ) = gap * sr) :
    (extractCandidates corr τ gap sr).Pairwise (fun c1 c2 => gap ≤ c2.1 - c1.1) ∧
      (((localMaxima corr).filter fun i => decide (τ ≤ heightAt corr i)) ≠ [] →
        ∃ c ∈ extractCandidates corr τ gap sr,
          ∀ j ∈ (localMaxima corr).filter fun i => decide (τ ≤ heightAt corr i),
            heightAt corr j ≤ c.2) := by
  set d := gapToSamples gap sr with hd
  set peaks := (localMaxima corr).filter
    (fun i => decide (τ ≤ heightAt corr i)) with hpeaks
  set order := (sortByKey (heightAt corr) peaks).reverse with horder
  set kept := nmsGreedy d order [] with hkept
  have hout : findPeaks corr τ d = peaks.filter fun p => kept.contains p := rfl
  have hmem_out_kept : ∀ p ∈ findPeaks corr τ d, p ∈ kept := by
    intro p hp
    rw [hout, List.mem_filter] at hp
    exact List.elem_iff.mp hp.2
  have hkept_pairwise : kept.Pairwise fun a b => d ≤ Nat.dist a b :=
    nmsGreedy_pairwise d order [] (List.Pairwise.nil)
  have hout_lt : (findPeaks corr τ d).Pairwise (· < ·) := by
    rw [hout]
    exact ((localMaxima_pairwise corr).sublist (List.filter_sublist _)).sublist
      (List.filter_sublist _)
  have hout_sep : (findPeaks corr τ d).Pairwise fun p q => p < q ∧ d ≤ Nat.dist p q := by
    refine hout_lt.imp_of_mem ?_
    intro p q hp hq hlt
    refine ⟨hlt, ?_⟩
    have hsym : Symmetric fun a b : ℕ => d ≤ Nat.dist a b := by
      intro a b hab
      rwa [Nat.dist_comm]
    exact List.Pairwise.forall hsym hkept_pairwise (hmem_out_kept p hp)
      (hmem_out_kept q hq) (Nat.ne_of_lt hlt)
  have hgap : gap = (d : ℚ) / sr := by
    rw [hInt, mul_div_cancel_right₀ gap (ne_of_gt hsr)]
  constructor
  · rw [extractCandidates, List.pairwise_map]
    refine hout_sep.imp ?_
    rintro p q ⟨hlt, hdist⟩
    have hsub : d ≤ q - p := by
      rwa [Nat.dist_eq_sub_of_le (le_of_lt hlt)] at hdist
    have hcast : (d : ℚ) ≤ (q : ℚ) - (p : ℚ) := by
      have h2 : (d:ℚ) ≤ ((q - p : ℕ) : ℚ) := by exact_mod_cast hsub
      rwa [Nat.cast_sub (le_of_lt hlt)] at h2
    show gap ≤ (q : ℚ) / sr - (p : ℚ) / sr
    rw [hgap, div_sub_div_same]
    exact div_le_div_of_nonneg_right hcast (le_of_lt hsr)
  · intro hne
    have horder_ne : order ≠ [] := by
      intro h0
      apply hne
      have hlen : order.length = peaks.length := by
        rw [horder, List.length_reverse, (sortByKey_perm (heightAt corr) peaks).length_eq]
      rw [h0] at hlen
      exact List.length_eq_zero.mp hlen.symm
    rcases List.exists_cons_of_ne_nil horder_ne with ⟨j0, tail, hcons⟩
    have hj0_kept : j0 ∈ kept := by
      rw [hkept, hcons]
      have : nmsGreedy d (j0 :: tail) [] = nmsGreedy d tail [j0] := by
        simp [nmsGreedy]
      rw [this]
      rcases nmsGreedy_exists_extra d tail [j0] with ⟨e, he, _⟩
      rw [he]
      exact List.mem_append_left _ (List.mem_singleton_self j0)
    have hj0_order : j0 ∈ order := by rw [hcons]; exact List.mem_cons_self ..
    have hmem_order_peaks : ∀ j ∈ order, j ∈ peaks := by
      intro j hj
      rw [horder, List.mem_reverse] at hj
      exact (sortByKey_perm (heightAt corr) peaks).mem_iff.mp hj
    have hj0_peaks : j0 ∈ peaks := hmem_order_peaks j0 hj0_order
    have hj0_out : j0 ∈ findPeaks corr τ d := by
      rw [hout, List.mem_filter]
      exact ⟨hj0_peaks, List.elem_iff.mpr hj0_kept⟩
    refine ⟨((j0 : ℚ) / sr, heightAt corr j0), ?_, ?_⟩
    · rw [extractCandidates]
      exact List.mem_map_of_mem _ hj0_out
    · intro j hj
      have hj_order : j ∈ order := by
        rw [horder, List.mem_reverse]
        exact (sortByKey_perm (heightAt corr) peaks).mem_iff.mpr hj
      have hdesc : order.Pairwise fun u v => heightAt corr v ≤ heightAt corr u := by
        rw [horder, List.pairwise_reverse]
        exact sortByKey_pairwise ..
      rw [hcons] at hj_order hdesc
      rcases List.mem_cons.mp hj_order with rfl | hj_tail
      · exact le_refl _
      · exact List.rel_of_pairwise_cons hdesc hj_tail

/-- Witness for `C4_refractory_amended` on a concrete trace (`gap = 3`,
`sr = 1`, so the distance is exactly 3 samples). -/
theorem C4_refractory_amended_witness :
    (0:ℚ) < 1 ∧ ((gapToSamples 3 1 : ℕ) : ℚ) = 3 * 1 ∧
      ((extractCandidates [0, 3, 0, 0, 0, 2, 0] 1 3 1).Pairwise
          fun c1 c2 => (3:ℚ) ≤ c2.1 - c1.1) := by
  have h1 : (0:ℚ) < 1 := by norm_num
  have h2 : ((gapToSamples 3 1 : ℕ) : ℚ) = 3 * 1 := by
    have h : gapToSamples 3 1 = 3 := by
      norm_num [gapToSamples]
      rfl
    rw [h]
    norm_num
  exact ⟨h1, h2, (C4_refractory_amended [0, 3, 0, 0, 0, 2, 0] 1 3 1 h1 h2).1⟩

/-! ## The full `find_pattern_matches` pipeline and the all-silence scenario -/

/-- Descending stable insertion (Python `sorted(..., reverse=True)` /
`list.sort(..., reverse=True)`): an element is placed before the first
element whose key is not larger, so equal keys keep their original order. -/
def insertByKeyDesc {α : Type} (key : α → ℚ) (a : α) : List α → List α
  | [] => [a]
  | b :: l => if key b ≤ key a then a :: b :: l else b :: insertByKeyDesc key a l

/-- Stable insertion sort descending by `key`. -/
def sortByKeyDesc {α : Type} (key : α → ℚ) : List α → List α
  | [] => []
  | a :: l => insertByKeyDesc key a (sortByKeyDesc key l)

/-- `find_pattern_matches(correlation_threshold, min_time_gap)`
(`src/audio_processing/pattern_matching.py`, lines 108–146): peak-normalize
both signals, valid-mode correlation divided by the template length,
`find_peaks(height, distance=int(min_time_gap * sr))`, convert indices to
`(time, score)` pairs and sort by score descending. -/
def find_pattern_matches (audio ref : List ℚ) (threshold gap sr : ℚ) : List (ℚ × ℚ) :=
  sortByKeyDesc (fun m => m.2)
    (extractCandidates (correlationTrace audio ref) threshold gap sr)

/-- The spec's EventSequence artifact: the ordered events plus the
`incomplete` flag. -/
structure SpecEventSequence where
  events : List (ℚ × ℚ)
  incomplete : Bool

/-- Modelled from the spec: no EventSequence record or `incomplete` flag
exists anywhere in the source (every script returns a bare list of
`(time, score)` pairs); §4.6/§7 of the spec prescribe returning all available
detections with `incomplete = true` whenever fewer detections exist than the
lower bound of `expected_count_range`. -/
def specEventSequence (events : List (ℚ × ℚ)) (expectedLo : ℕ) : SpecEventSequence :=
  ⟨events, decide (events.length < expectedLo)⟩

theorem dot_replicate_zero (k : ℕ) (y : List ℚ) : dot (List.replicate k 0) y = 0 := by
  induction k generalizing y with
  | zero => simp [dot]
  | succ m ih =>
      cases y with
      | nil => simp [dot]
      | cons b ys =>
          have h := ih ys
          simp only [List.replicate_succ, dot, List.zip_cons_cons, List.map_cons,
            List.sum_cons] at h ⊢
          rw [h]
          ring

theorem trace_all_zero (n : ℕ) (ref : List ℚ) :
    ∀ v ∈ correlationTrace (List.replicate n 0) ref, v = 0 := by
  intro v hv
  rw [correlationTrace] at hv
  rcases List.mem_map.mp hv with ⟨c, hc, rfl⟩
  rw [correlateValid] at hc
  rcases List.mem_map.mp hc with ⟨j, _, rfl⟩
  have hz : normalizeByPeak (List.replicate n 0) = List.replicate n 0 := by
    simp [normalizeByPeak, List.map_replicate, zero_div]
  rw [hz, List.drop_replicate, List.take_replicate, dot_replicate_zero, zero_div]

theorem getD_eq_zero_of_all_zero {l : List ℚ} (h : ∀ v ∈ l, v = 0) (j : ℕ) :
    l.getD j 0 = 0 := by
  by_cases hj : j < l.length
  · rw [List.getD_eq_getElem l 0 hj]
    exact h _ (List.getElem_mem hj)
  · rw [List.getD_eq_default]
    omega

theorem localMaximaAux_of_flat (x : List ℚ) (h : ∀ j, x.getD j 0 = 0) (iMax : ℕ) :
    ∀ fuel i, localMaximaAux x iMax fuel i = [] := by
  intro fuel
  induction fuel with
  | zero => intro i; rfl
  | succ f ih =>
      intro i
      simp only [localMaximaAux]
      by_cases h1 : i < iMax
      · rw [if_pos h1, h (i - 1), h i, if_neg (lt_irrefl 0)]
        exact ih (i + 1)
      · rw [if_neg h1]

/-- C6: on an all-zero (silent) input signal, the pipeline of
`find_pattern_matches` completes and the Peak Extractor returns an empty
candidate list (the flat trace has no local maxima for any threshold or
template), and the spec-side EventSequence built from it is empty with
`incomplete = true`.  (NumPy produces a NaN trace from the 0/0 peak
normalization instead of the all-zero trace of the `ℚ` model; comparisons
with NaN are all false, so `find_peaks` returns no peaks there as well — the
observable output is the same empty list, with no exception raised.) -/
theorem C6_all_silence (n : ℕ) (ref : List ℚ) (threshold gap sr : ℚ) (lo : ℕ)
    (hlo : 1 ≤ lo) :
    find_pattern_matches (List.replicate n 0) ref threshold gap sr = [] ∧
      specEventSequence (find_pattern_matches (List.replicate n 0) ref threshold gap sr)
        lo = ⟨[], true⟩ := by
  have hflat : ∀ j, (correlationTrace (List.replicate n 0) ref).getD j 0 = 0 :=
    getD_eq_zero_of_all_zero (trace_all_zero n ref)
  have hlm : localMaxima (correlationTrace (List.replicate n 0) ref) = [] :=
    localMaximaAux_of_flat _ hflat _ _ _
  have hfp : findPeaks (correlationTrace (List.replicate n 0) ref) threshold
      (gapToSamples gap sr) = [] := by
    rw [findPeaks, hlm]
    rfl
  have hm : find_pattern_matches (List.replicate n 0) ref threshold gap sr = [] := by
    rw [find_pattern_matches, extractCandidates, hfp]
    rfl
  refine ⟨hm, ?_⟩
  rw [hm, specEventSequence]
  have h0 : ([] : List (ℚ × ℚ)).length < lo := by
    simpa using hlo
  simp [h0]
  omega

/-- Witness for `C6_all_silence`: a 4-sample silent signal against the
template `[1, 2]` with the code's default threshold and gap. -/
theorem C6_all_silence_witness :
    1 ≤ 1 ∧
      find_pattern_matches (List.replicate 4 0) [1, 2] (3/10) 30 2 = [] ∧
      specEventSequence (find_pattern_matches (List.replicate 4 0) [1, 2] (3/10) 30 2)
        1 = ⟨[], true⟩ :=
  ⟨by decide, (C6_all_silence 4 [1, 2] (3/10) 30 2 1 (by decide)).1,
    (C6_all_silence 4 [1, 2] (3/10) 30 2 1 (by decide)).2⟩

/-! ## Consensus Reconciler

`combine_template_results(all_detections, tolerance=5.0)` in
`src/multi_template_detector.py`, lines 168–232. -/

/-- A flattened candidate `(time_sec, template_name, score)` (lines 175–179);
template identity is the position of its list in the input (Python dicts
preserve insertion order). -/
structure TCand where
  time : ℚ
  tid : ℕ
  score : ℚ

/-- A consensus detection (lines 213–218): representative time and score,
cluster size (`strength`) and the list of contributing template names —
taken verbatim from the group, duplicates included. -/
structure Consensus where
  time : ℚ
  score : ℚ
  strength : ℕ
  templates : List ℕ

/-- Lines 175–182: flatten the per-template detection lists into triples. -/
def flattenDetections (allDetections : List (List (ℚ × ℚ))) : List TCand :=
  (allDetections.enum.map fun p => p.2.map fun m => TCand.mk m.1 p.1 m.2).flatten

/-- Python `max(group, key=...)`: the running best is replaced only on a
strictly larger key, so the first element attaining the maximum wins. -/
def pyMaxBy {α : Type} (key : α → ℚ) : α → List α → α
  | best, [] => best
  | best, c :: rest => pyMaxBy key (if key best < key c then c else best) rest

/-- Lines 188–225: scan the time-sorted candidates; a group collects every
following candidate within `tolerance` of the group's FIRST member
(`abs(next_time - current_time) <= tolerance`, breaking at the first
failure), and the scan resumes after the group (`i = j`).  `fuel` is always
at least the list length, making the recursion structural. -/
def groupClustersAux (tol : ℚ) : ℕ → List TCand → List (List TCand)
  | 0, _ => []
  | _ + 1, [] => []
  | fuel + 1, c :: rest =>
    (c :: rest.takeWhile fun c2 => |c2.time - c.time| ≤ tol) ::
      groupClustersAux tol fuel (rest.dropWhile fun c2 => |c2.time - c.time| ≤ tol)

def groupClusters (tol : ℚ) (l : List TCand) : List (List TCand) :=
  groupClustersAux tol l.length l

/-- The final `consensus_detections.sort(key=(strength, score), reverse=True)`
(line 230): stable descending sort by the lexicographic pair. -/
def insertConsensusDesc (a : Consensus) : List Consensus → List Consensus
  | [] => [a]
  | b :: l =>
      if b.strength < a.strength ∨ (b.strength = a.strength ∧ b.score ≤ a.score) then
        a :: b :: l
      else b :: insertConsensusDesc a l

def sortConsensusDesc : List Consensus → List Consensus
  | [] => []
  | a :: l => insertConsensusDesc a (sortConsensusDesc l)

/-- `combine_template_results`: sort all candidates by time, group within
tolerance, promote every group with `len(group) >= 2` (line 204) to a
consensus detection represented by its highest-scoring member, and sort the
result by (strength, score) descending. -/
def combine_template_results (allDetections : List (List (ℚ × ℚ))) (tol : ℚ) :
    List Consensus :=
  let allTimes := sortByKey (fun c : TCand => c.time) (flattenDetections allDetections)
  let consensus := ((groupClusters tol allTimes).filter fun g => 2 ≤ g.length).map
    fun g =>
      match g with
      | [] => Consensus.mk 0 0 0 []
      | c :: rest =>
          let best := pyMaxBy (fun t : TCand => t.score) c rest
          Consensus.mk best.time best.score (c :: rest).length
            ((c :: rest).map fun t => t.tid)
  sortConsensusDesc consensus

/-- C2 (refuted on the code, matching the spec's and the code's own stated
intent): `combine_template_results` promotes a cluster when it contains at
least 2 CANDIDATES (`len(group) >= 2`), not 2 distinct templates.  With a
single template producing candidates at t = 0 and t = 3 and tolerance 5, the
returned Detection is supported by the multiset `[0, 0]` of template ids —
only 1 distinct template, contradicting `|supporting_templates| ≥ 2`.  The
representative time and score are those of the group's highest-scoring
candidate, as claimed. -/
theorem C2_consensus_cardinality_eval :
    combine_template_results [[(0, 2), (3, 1)]] 5 =
      [Consensus.mk 0 2 2 [0, 0]] ∧
      (Consensus.mk (0:ℚ) (2:ℚ) 2 [0, 0]).templates.dedup.length = 1 := by
  constructor
  · norm_num [combine_template_results, flattenDetections, sortByKey, insertByKey,
      groupClusters, groupClustersAux, pyMaxBy, sortConsensusDesc, insertConsensusDesc,
      List.takeWhile, List.dropWhile]
  · rfl

/-! ## Template Library: RMS-scored window selection

`extract_expanded_patterns` in
`src/archive/old_audio_detection/extract_expanded_patterns.py`, lines 66–78:
slide a `segment_length` window over the padded audio at `step` sample
strides, score each position by RMS energy, and select the position with the
maximal score via Python's `max`.  No identifier `TemplateQualityError`
exists anywhere in the repository and this loop has no quality check or
failure path. -/

/-- `np.mean` of a list of rationals (the code only applies it to nonempty
segments). -/
def meanQ (l : List ℚ) : ℚ := l.sum / l.length

/-- `np.sqrt(np.mean(segment**2))` — the RMS score of a segment. -/
noncomputable def rmsOf (segment : List ℚ) : ℝ :=
  Real.sqrt ((meanQ (segment.map fun x => x * x) : ℚ) : ℝ)

/-- `range(0, len(audio) - segment_length + 1, step)` (line 70). -/
def segmentStarts (len segLen step : ℕ) : List ℕ :=
  if segLen ≤ len then (List.range ((len - segLen) / step + 1)).map (· * step) else []

/-- The `(start_sample, rms)` score list (lines 69–74). -/
noncomputable def rmsScores (audio : List ℚ) (segLen step : ℕ) : List (ℕ × ℝ) :=
  (segmentStarts audio.length segLen step).map fun s =>
    (s, rmsOf ((audio.drop s).take segLen))

/-- Python `max(..., key=lambda x: x[1])` over the score list: the running
best is replaced only on a strictly larger score, so the first position
attaining the maximum wins. -/
noncomputable def pyMaxBySnd : (ℕ × ℝ) → List (ℕ × ℝ) → (ℕ × ℝ)
  | best, [] => best
  | best, c :: rest => pyMaxBySnd (if best.2 < c.2 then c else best) rest

/-- `best_rms_start, best_rms_score = max(rms_scores, key=lambda x: x[1])`
(line 76).  (`max` on an empty list would raise in Python; the list is
nonempty whenever the segment fits, which is the only way the code calls
it.) -/
noncomputable def bestRmsSelection (audio : List ℚ) (segLen step : ℕ) : ℕ × ℝ :=
  match rmsScores audio segLen step with
  | [] => (0, 0)
  | c :: rest => pyMaxBySnd c rest

/-- `best_rms_segment = expanded_audio[start : start + segment_length]`
(line 77). -/
noncomputable def best_rms_segment (audio : List ℚ) (segLen step : ℕ) : List ℚ :=
  (audio.drop (bestRmsSelection audio segLen step).1).take segLen

theorem rmsOf_replicate_zero (k : ℕ) : rmsOf (List.replicate k 0) = 0 := by
  have h : meanQ ((List.replicate k (0:ℚ)).map fun x => x * x) = 0 := by
    simp [meanQ, List.map_replicate]
  rw [rmsOf, h]
  simp [Real.sqrt_zero]

theorem pyMaxBySnd_flat (rest : List (ℕ × ℝ)) (best : ℕ × ℝ)
    (hb : best.2 = 0) (hr : ∀ c ∈ rest, c.2 = (0:ℝ)) :
    pyMaxBySnd best rest = best := by
  induction rest generalizing best with
  | nil => rfl
  | cons c cs ih =>
      have hc : c.2 = 0 := hr c (List.mem_cons_self c cs)
      have hnlt : ¬ (best.2 < c.2) := by rw [hb, hc]; exact lt_irrefl 0
      simp only [pyMaxBySnd, if_neg hnlt]
      exact ih best hb fun u hu => hr u (List.mem_cons_of_mem c hu)

theorem bestRms_silence (n segLen step : ℕ) (hfit : segLen ≤ n) (_hstep : 1 ≤ step) :
    bestRmsSelection (List.replicate n 0) segLen step = (0, 0) ∧
      best_rms_segment (List.replicate n 0) segLen step = List.replicate segLen 0 := by
  have hlen : (List.replicate n (0:ℚ)).length = n := List.length_replicate ..
  have hstarts : segmentStarts n segLen step =
      (List.range ((n - segLen) / step + 1)).map (· * step) := by
    rw [segmentStarts, if_pos hfit]
  have hscores : rmsScores (List.replicate n 0) segLen step =
      (segmentStarts n segLen step).map fun s => (s, (0:ℝ)) := by
    rw [rmsScores, hlen]
    apply List.map_congr_left
    intro s _
    have hwin : ((List.replicate n (0:ℚ)).drop s).take segLen =
        List.replicate (min segLen (n - s)) 0 := by
      rw [List.drop_replicate, List.take_replicate]
    rw [hwin, rmsOf_replicate_zero]
  have hrange : segmentStarts n segLen step =
      0 :: (List.range ((n - segLen) / step)).map fun k => (k + 1) * step := by
    rw [hstarts, List.range_succ_eq_map]
    simp [List.map_map, Function.comp]
  have hsel : bestRmsSelection (List.replicate n 0) segLen step = (0, 0) := by
    rw [bestRmsSelection]
    rw [hscores, hrange]
    simp only [List.map_cons]
    exact pyMaxBySnd_flat _ _ rfl (by
      intro c hc
      rcases List.mem_map.mp hc with ⟨k, _, rfl⟩
      rfl)
  refine ⟨hsel, ?_⟩
  rw [best_rms_segment, hsel]
  simp only [List.drop_replicate, List.take_replicate, Nat.sub_zero]
  rw [min_eq_left hfit]

/-- C7 (as stated, refuted): on an all-silence padded window (where the RMS
quality metric is flat — identically zero — across all inner-window
positions) the implementation does NOT fail: `max` silently selects the
first window position, score 0, and the selected "best" segment is the
degenerate all-zero template.  No `TemplateQualityError` (or any error path)
exists in the code. -/
theorem C7_template_quality_counterexample :
    bestRmsSelection (List.replicate 8 0) 4 2 = (0, 0) ∧
      best_rms_segment (List.replicate 8 0) 4 2 = List.replicate 4 0 :=
  bestRms_silence 8 4 2 (by decide) (by decide)

/-- C7 (amended): whenever the window is silence (so the quality metric is
flat at zero over every scanned position), `extract_expanded_patterns`
silently returns the first position with score 0 and the degenerate all-zero
segment, instead of raising any error. -/
theorem C7_template_quality_amended (n segLen step : ℕ)
    (hfit : segLen ≤ n) (hstep : 1 ≤ step) :
    bestRmsSelection (List.replicate n 0) segLen step = (0, 0) ∧
      best_rms_segment (List.replicate n 0) segLen step = List.replicate segLen 0 :=
  bestRms_silence n segLen step hfit hstep

/-- Witness for `C7_template_quality_amended` on a 6-sample silent window
with a 2-sample segment and unit stride. -/
theorem C7_template_quality_amended_witness :
    2 ≤ 6 ∧ 1 ≤ 1 ∧
      (bestRmsSelection (List.replicate 6 0) 2 1 = (0, 0) ∧
        best_rms_segment (List.replicate 6 0) 2 1 = List.replicate 2 0) :=
  ⟨by decide, by decide, C7_template_quality_amended 6 2 1 (by decide) (by decide)⟩

/-! ## Structural Post-Filter

`analyze_chronological_transitions` in
`src/archive/old_audio_detection/analyze_chronological_transitions.py`,
lines 62–154, from the point where `all_matches` (chronologically sorted
`(time, score)` pairs) has been built. -/

/-- Method 1 (lines 64–66), evenly-spaced sampling: `step = len / 9` and the
selected indices are `int(i * step)` for `i in range(9)`. -/
def method1 (l : List (ℚ × ℚ)) : List (ℚ × ℚ) :=
  (List.range 9).map fun (i : ℕ) =>
    l.getD ((Int.floor ((i : ℚ) * (l.length : ℚ) / 9)).toNat) (0, 0)

/-- Method 2 (lines 75–83), greedy minimum spacing: accept a match when its
time is at least 120 s after the last accepted one (starting from −120),
stopping once 9 are accepted (the `break` fires right after the 9th
append). -/
def method2Aux : List (ℚ × ℚ) → ℚ → ℕ → List (ℚ × ℚ)
  | [], _, _ => []
  | (t, s) :: rest, lastTime, count =>
      if 120 ≤ t - lastTime then
        if 8 ≤ count then [(t, s)]
        else (t, s) :: method2Aux rest t (count + 1)
      else method2Aux rest lastTime count

def method2 (l : List (ℚ × ℚ)) : List (ℚ × ℚ) := method2Aux l (-120) 0

/-- Method 3 (lines 92–93), top-score selection: stable sort by score
descending, take 9, re-sort by time. -/
def method3 (l : List (ℚ × ℚ)) : List (ℚ × ℚ) :=
  sortByKey (fun m => m.1) ((sortByKeyDesc (fun m => m.2) l).take 9)

/-- The inter-event gaps `times[i+1] - times[i]` (line 117). -/
def gapsOf (l : List (ℚ × ℚ)) : List ℚ :=
  (l.zip l.tail).map fun p => p.2.1 - p.1.1

/-- `np.std`: the population standard deviation. -/
noncomputable def npStd (l : List ℚ) : ℝ :=
  Real.sqrt ((meanQ (l.map fun x => (x - meanQ l) * (x - meanQ l)) : ℚ) : ℝ)

/-- Lines 119–124: `gap_consistency = 1 / (np.std(gaps) + 1)`,
`gap_score = 1 / (abs(avg_gap - 200) + 1)` (ideal gap 200 s), and
`total_score = gap_score * gap_consistency`. -/
noncomputable def fitnessOf (m : List (ℚ × ℚ)) : ℝ :=
  (1 / (|((meanQ (gapsOf m) : ℚ) : ℝ) - 200| + 1)) * (1 / (npStd (gapsOf m) + 1))

/-- Lines 111–130: fold over the three candidate selections, scoring those
with at least 2 events and keeping the first one that strictly beats the
running best score (initially −1). -/
noncomputable def pickBestAux : List (List (ℚ × ℚ)) → Option (List (ℚ × ℚ)) → ℝ →
    Option (List (ℚ × ℚ))
  | [], best, _ => best
  | m :: rest, best, bestScore =>
      if 2 ≤ m.length then
        if bestScore < fitnessOf m then pickBestAux rest (some m) (fitnessOf m)
        else pickBestAux rest best bestScore
      else pickBestAux rest best bestScore

/-- `analyze_chronological_transitions` after `all_matches` exists: with at
least 9 matches, return the best-fitness selection among the three methods;
with fewer, return all matches unchanged (line 154).  `none` is Python's
implicit `None` on the (unreachable) path where no method was scored. -/
noncomputable def analyze_chronological_transitions (allMatches : List (ℚ × ℚ)) :
    Option (List (ℚ × ℚ)) :=
  if 9 ≤ allMatches.length then
    pickBestAux [method1 allMatches, method2 allMatches, method3 allMatches] none (-1)
  else some allMatches

theorem fitnessOf_pos (m : List (ℚ × ℚ)) : 0 < fitnessOf m := by
  have h1 : (0:ℝ) < |((meanQ (gapsOf m) : ℚ) : ℝ) - 200| + 1 := by
    have := abs_nonneg (((meanQ (gapsOf m) : ℚ) : ℝ) - 200)
    linarith
  have h2 : (0:ℝ) < npStd (gapsOf m) + 1 := by
    have : (0:ℝ) ≤ npStd (gapsOf m) := Real.sqrt_nonneg _
    linarith
  exact mul_pos (div_pos one_pos h1) (div_pos one_pos h2)

theorem method1_length (l : List (ℚ × ℚ)) : (method1 l).length = 9 := by
  rw [method1, List.length_map, List.length_range]

theorem pickBestAux_mem (ms : List (List (ℚ × ℚ))) (best : Option (List (ℚ × ℚ)))
    (bs : ℝ) (m : List (ℚ × ℚ)) (hres : pickBestAux ms best bs = some m) :
    best = some m ∨ m ∈ ms := by
  induction ms generalizing best bs with
  | nil =>
      simp only [pickBestAux] at hres
      exact Or.inl hres
  | cons k rest ih =>
      simp only [pickBestAux] at hres
      by_cases hk : 2 ≤ k.length
      · rw [if_pos hk] at hres
        by_cases hlt : bs < fitnessOf k
        · rw [if_pos hlt] at hres
          rcases ih _ _ hres with h | h
          · injection h with h
            exact Or.inr (h ▸ List.mem_cons_self k rest)
          · exact Or.inr (List.mem_cons_of_mem k h)
        · rw [if_neg hlt] at hres
          rcases ih _ _ hres with h | h
          · exact Or.inl h
          · exact Or.inr (List.mem_cons_of_mem k h)
      · rw [if_neg hk] at hres
        rcases ih _ _ hres with h | h
        · exact Or.inl h
        · exact Or.inr (List.mem_cons_of_mem k h)

theorem pickBestAux_dominates (ms : List (List (ℚ × ℚ)))
    (best : Option (List (ℚ × ℚ))) (bs : ℝ) (m : List (ℚ × ℚ))
    (hres : pickBestAux ms best bs = some m)
    (hbest : ∀ b, best = some b → bs ≤ fitnessOf b) :
    (∀ k ∈ ms, 2 ≤ k.length → fitnessOf k ≤ fitnessOf m) ∧ bs ≤ fitnessOf m := by
  induction ms generalizing best bs with
  | nil =>
      simp only [pickBestAux] at hres
      exact ⟨by simp, hbest m hres⟩
  | cons k rest ih =>
      simp only [pickBestAux] at hres
      by_cases hk : 2 ≤ k.length
      · rw [if_pos hk] at hres
        by_cases hlt : bs < fitnessOf k
        · rw [if_pos hlt] at hres
          have hrec := ih _ _ hres fun b hb => by
            injection hb with hb
            rw [← hb]
          refine ⟨?_, le_of_lt (lt_of_lt_of_le hlt hrec.2)⟩
          intro u hu h2
          rcases List.mem_cons.mp hu with rfl | hu2
          · exact hrec.2
          · exact hrec.1 u hu2 h2
        · rw [if_neg hlt] at hres
          have hrec := ih _ _ hres hbest
          refine ⟨?_, hrec.2⟩
          intro u hu h2
          rcases List.mem_cons.mp hu with rfl | hu2
          · exact le_trans (le_of_not_lt hlt) hrec.2
          · exact hrec.1 u hu2 h2
      · rw [if_neg hk] at hres
        have hrec := ih _ _ hres hbest
        refine ⟨?_, hrec.2⟩
        intro u hu h2
        rcases List.mem_cons.mp hu with rfl | hu2
        · exact absurd h2 hk
        · exact hrec.1 u hu2 h2

theorem pickBestAux_some_of_some (ms : List (List (ℚ × ℚ))) (b : List (ℚ × ℚ))
    (bs : ℝ) : ∃ m, pickBestAux ms (some b) bs = some m := by
  induction ms generalizing b bs with
  | nil => exact ⟨b, rfl⟩
  | cons k rest ih =>
      simp only [pickBestAux]
      by_cases hk : 2 ≤ k.length
      · rw [if_pos hk]
        by_cases hlt : bs < fitnessOf k
        · rw [if_pos hlt]; exact ih ..
        · rw [if_neg hlt]; exact ih ..
      · rw [if_neg hk]; exact ih ..

theorem pickBestAux_isSome (ms : List (List (ℚ × ℚ))) (best : Option (List (ℚ × ℚ)))
    (bs : ℝ) (h : ∃ k ∈ ms, 2 ≤ k.length ∧ bs < fitnessOf k) :
    ∃ m, pickBestAux ms best bs = some m := by
  induction ms generalizing best bs with
  | nil => rcases h with ⟨k, hk, _⟩; cases hk
  | cons k0 rest ih =>
      simp only [pickBestAux]
      rcases h with ⟨k, hk, h2, h3⟩
      by_cases hk0 : 2 ≤ k0.length
      · rw [if_pos hk0]
        by_cases hlt : bs < fitnessOf k0
        · rw [if_pos hlt]
          exact pickBestAux_some_of_some ..
        · rw [if_neg hlt]
          rcases List.mem_cons.mp hk with rfl | hmem
          · exact absurd h3 hlt
          · exact ih _ _ ⟨k, hmem, h2, h3⟩
      · rw [if_neg hk0]
        rcases List.mem_cons.mp hk with rfl | hmem
        · exact absurd h2 hk0
        · exact ih _ _ ⟨k, hmem, h2, h3⟩

/-- C8: whenever fewer matches exist than the expected lower bound of 9
innings, `analyze_chronological_transitions` returns all available matches
unchanged (line 154) — no `NoDetectionsError` or any exception exists on this
path — and the spec-side EventSequence built from them carries
`incomplete = true`. -/
theorem C8_partial_result (allMatches : List (ℚ × ℚ)) (h : allMatches.length < 9) :
    analyze_chronological_transitions allMatches = some allMatches ∧
      (specEventSequence allMatches 9).events = allMatches ∧
      (specEventSequence allMatches 9).incomplete = true := by
  refine ⟨?_, rfl, ?_⟩
  · rw [analyze_chronological_transitions, if_neg (by omega)]
  · simp [specEventSequence, h]

/-- Witness for `C8_partial_result` on a 2-element match list. -/
theorem C8_partial_result_witness :
    ([(100, 1), (300, 2)] : List (ℚ × ℚ)).length < 9 ∧
      (analyze_chronological_transitions [(100, 1), (300, 2)] =
          some [(100, 1), (300, 2)] ∧
        (specEventSequence [(100, 1), (300, 2)] 9).events = [(100, 1), (300, 2)] ∧
        (specEventSequence [(100, 1), (300, 2)] 9).incomplete = true) :=
  ⟨by decide, C8_partial_result [(100, 1), (300, 2)] (by decide)⟩

/-- C9: with at least 9 matches, `analyze_chronological_transitions` returns
one of the three candidate selections, its fitness — defined exactly as
`1/(|mean_gap − 200| + 1) × 1/(std_gap + 1)` over the inter-event gaps — is
maximal among the methods with at least two events, and every method's
fitness literally equals that formula. -/
theorem C9_fitness_selection (allMatches : List (ℚ × ℚ))
    (h9 : 9 ≤ allMatches.length) :
    ∃ m, analyze_chronological_transitions allMatches = some m ∧
      (m = method1 allMatches ∨ m = method2 allMatches ∨ m = method3 allMatches) ∧
      (∀ k, (k = method1 allMatches ∨ k = method2 allMatches ∨ k = method3 allMatches) →
        2 ≤ k.length → fitnessOf k ≤ fitnessOf m) ∧
      (∀ k, fitnessOf k =
        (1 / (|((meanQ (gapsOf k) : ℚ) : ℝ) - 200| + 1)) *
          (1 / (npStd (gapsOf k) + 1))) := by
  have hm1 : 2 ≤ (method1 allMatches).length := by
    rw [method1_length]
    omega
  have hex : ∃ m, pickBestAux
      [method1 allMatches, method2 allMatches, method3 allMatches] none (-1) =
        some m := by
    apply pickBestAux_isSome
    refine ⟨method1 allMatches, List.mem_cons_self .., hm1, ?_⟩
    have := fitnessOf_pos (method1 allMatches)
    linarith
  rcases hex with ⟨m, hm⟩
  have hres : analyze_chronological_transitions allMatches = some m := by
    rw [analyze_chronological_transitions, if_pos h9]
    exact hm
  have hmem := pickBestAux_mem _ _ _ _ hm
  have hdom := pickBestAux_dominates _ _ _ _ hm (by intro b hb; cases hb)
  refine ⟨m, hres, ?_, ?_, fun k => rfl⟩
  · rcases hmem with h | h
    · cases h
    · rcases List.mem_cons.mp h with h1 | h1
      · exact Or.inl h1
      · rcases List.mem_cons.mp h1 with h2 | h2
        · exact Or.inr (Or.inl h2)
        · rcases List.mem_cons.mp h2 with h3 | h3
          · exact Or.inr (Or.inr h3)
          · cases h3
  · intro k hk h2
    apply hdom.1 k _ h2
    rcases hk with rfl | rfl | rfl
    · exact List.mem_cons_self ..
    · exact List.mem_cons_of_mem _ (List.mem_cons_self ..)
    · exact List.mem_cons_of_mem _ (List.mem_cons_of_mem _ (List.mem_cons_self ..))

/-- Witness for `C9_fitness_selection` on 9 matches spaced 200 s apart. -/
theorem C9_fitness_selection_witness :
    9 ≤ ([(0, 1), (200, 1), (400, 1), (600, 1), (800, 1), (1000, 1), (1200, 1),
        (1400, 1), (1600, 1)] : List (ℚ × ℚ)).length ∧
      ∃ m, analyze_chronological_transitions
          [(0, 1), (200, 1), (400, 1), (600, 1), (800, 1), (1000, 1), (1200, 1),
            (1400, 1), (1600, 1)] = some m ∧
        (m = method1 [(0, 1), (200, 1), (400, 1), (600, 1), (800, 1), (1000, 1),
            (1200, 1), (1400, 1), (1600, 1)] ∨
          m = method2 [(0, 1), (200, 1), (400, 1), (600, 1), (800, 1), (1000, 1),
            (1200, 1), (1400, 1), (1600, 1)] ∨
          m = method3 [(0, 1), (200, 1), (400, 1), (600, 1), (800, 1), (1000, 1),
            (1200, 1), (1400, 1), (1600, 1)]) ∧
        (∀ k, (k = method1 [(0, 1), (200, 1), (400, 1), (600, 1), (800, 1),
              (1000, 1), (1200, 1), (1400, 1), (1600, 1)] ∨
            k = method2 [(0, 1), (200, 1), (400, 1), (600, 1), (800, 1), (1000, 1),
              (1200, 1), (1400, 1), (1600, 1)] ∨
            k = method3 [(0, 1), (200, 1), (400, 1), (600, 1), (800, 1), (1000, 1),
              (1200, 1), (1400, 1), (1600, 1)]) →
          2 ≤ k.length → fitnessOf k ≤ fitnessOf m) ∧
        (∀ k, fitnessOf k =
          (1 / (|((meanQ (gapsOf k) : ℚ) : ℝ) - 200| + 1)) *
            (1 / (npStd (gapsOf k) + 1))) :=
  ⟨by decide,
    C9_fitness_selection [(0, 1), (200, 1), (400, 1), (600, 1), (800, 1), (1000, 1),
      (1200, 1), (1400, 1), (1600, 1)] (by decide)⟩

end DingerStats
